import Mathlib

/-!
Verification of broker's reliable channel (include/broker/detail/channel.hh),
the master state machine (master actor translation unit), and address::mask
(src/address.cc), as shallow embeddings in Lean.

Machine integers: sequence numbers and tick counters are uint64 in the
source; we model them as Nat and apply `% 2 ^ 64` where the counter is
incremented unboundedly (consumer tick counter).  `idle_ticks_` is uint8 and
is modelled with `% 256`.  Sequence numbers themselves only ever grow by one
per produced event and the source documents wrap-around as out of scope.
-/

namespace Broker

/-- Transmits ordered data to a consumer (struct channel::event). -/
structure Event (α : Type) where
  seq : Nat
  content : α
  deriving DecidableEq, Repr

/-- Bundles consumer handle, offset and last acknowledged sequence number
(struct channel::producer::path).  Handles are modelled as naturals. -/
structure Path where
  hdl : Nat
  offset : Nat
  acked : Nat
  deriving DecidableEq, Repr

/-- State of channel::producer: the monotonically increasing counter `seq_`
(starting at 0, pre-incremented on produce), the retransmission buffer
`buf_` and the consumer paths `paths_`.  The backend pointer carries no
state; messages sent through it are returned explicitly where a claim needs
them. -/
structure Producer (α : Type) where
  seq : Nat
  buf : List (Event α)
  paths : List Path
  deriving DecidableEq, Repr

/-- Messages a producer sends to a consumer. -/
inductive PMsg (α : Type) where
  | handshake (firstSeq : Nat)
  | event (e : Event α)
  | retransmitFailed (seq : Nat)
  deriving DecidableEq, Repr

namespace Producer

variable {α : Type}

/-- channel::producer::produce: `++seq_; buf_.emplace_back(event{seq_, content});`
The subsequent `backend_->send(paths_, buf_.back())` fans the new event out
to all paths and does not change producer state. -/
def produce (p : Producer α) (content : α) : Producer α :=
  { p with seq := p.seq + 1, buf := p.buf ++ [⟨p.seq + 1, content⟩] }

/-- channel::producer::idle: every path acknowledged the current `seq_`. -/
def idle (p : Producer α) : Bool :=
  p.paths.all fun x => x.acked == p.seq

/-- channel::producer::find_path: first path whose handle matches. -/
def find_path (p : Producer α) (hdl : Nat) : Option Path :=
  p.paths.find? fun x => x.hdl == hdl

/-- channel::producer::find_event: first buffered event with the given
sequence number. -/
def find_event (p : Producer α) (seq : Nat) : Option (Event α) :=
  p.buf.find? fun e => e.seq == seq

/-- channel::producer::handle_ack.  One pass over `paths_` updates the
matching path's `acked` to `seq` and folds the minimum acknowledged number
over the remaining paths (the loop skips the matching path when taking the
minimum, starting from the incoming `seq`).  Afterwards the buffer prefix of
events that are not beyond the minimum is erased:
`buf_.erase(buf_.begin(), find_if(buf_, [](e) { return e.seq > acked; }))`. -/
def handle_ack (p : Producer α) (hdl : Nat) (seq : Nat) : Producer α :=
  let acked := p.paths.foldl (fun a x => if x.hdl == hdl then a else min x.acked a) seq
  { p with
    paths := p.paths.map fun x => if x.hdl == hdl then { x with acked := seq } else x,
    buf := p.buf.dropWhile fun e => !(acked < e.seq) }

/-- channel::producer::add: reject duplicate handles (ec::consumer_exists),
otherwise append `path{hdl, seq_ + 1, seq_}` and send `handshake{seq_ + 1}`
to the new consumer.  The returned list holds the messages sent to `hdl`. -/
def add (p : Producer α) (hdl : Nat) : Producer α × List (PMsg α) :=
  if (find_path p hdl).isSome then (p, [])
  else ({ p with paths := p.paths ++ [⟨hdl, p.seq + 1, p.seq⟩] },
        [PMsg.handshake (p.seq + 1)])

/-- channel::producer::handle_nack.  Empty lists and unknown handles are
ignored; a leading 0 re-sends the handshake with the path's offset; otherwise
`seqs.front() - 1` is handled as an ack and every requested sequence number
is re-sent from the buffer or answered with retransmit_failed.  The returned
list holds the messages sent to `hdl`. -/
def handle_nack (p : Producer α) (hdl : Nat) (seqs : List Nat) :
    Producer α × List (PMsg α) :=
  match seqs with
  | [] => (p, [])
  | first :: _ =>
    match find_path p hdl with
    | none => (p, [])
    | some pa =>
      if first == 0 then (p, [PMsg.handshake pa.offset])
      else
        let p1 := handle_ack p hdl (first - 1)
        (p1, seqs.map fun s =>
          match find_event p1 s with
          | some e => PMsg.event e
          | none => PMsg.retransmitFailed s)

/-- Minimum acknowledged sequence number over a list of paths (0 for the
empty list, which never occurs in the statements below). -/
def minAcked : List Path → Nat
  | [] => 0
  | x :: xs => xs.foldl (fun m y => min m y.acked) x.acked

end Producer

/-- C4 counterexample input: a fresh producer with one registered path for
handle 0 (offset 1, acked 0) and `seq_ = 0`. -/
def c4Producer : Producer Nat := ⟨0, [], [⟨0, 1, 0⟩]⟩

/-- Operations a client may perform on a producer: produce a payload or
deliver a cumulative ack for a handle. -/
inductive POp (α : Type) where
  | prod (content : α)
  | ack (hdl : Nat) (s : Nat)
  deriving DecidableEq, Repr

/-- Run a list of operations on a producer while recording the ghost log of
every event handed to `produce` (with the sequence number `produce` assigns
to it). -/
def prun (p : Producer α) (log : List (Event α)) : List (POp α) → Producer α × List (Event α)
  | [] => (p, log)
  | POp.prod a :: ops => prun (p.produce a) (log ++ [⟨p.seq + 1, a⟩]) ops
  | POp.ack h s :: ops => prun (p.handle_ack h s) log ops

/-- The claim's hypothesis on a run: every ack carries a value no greater
than the producer's sequence counter at the time of the call. -/
def acksBounded (p : Producer α) : List (POp α) → Bool
  | [] => true
  | POp.prod a :: ops => acksBounded (p.produce a) ops
  | POp.ack h s :: ops => decide (s ≤ p.seq) && acksBounded (p.handle_ack h s) ops

/-- The amended hypothesis: acks are bounded by the sequence counter and
never regress below the matching path's current acked value (cumulative
acks are monotone per path). -/
def acksMonotone (p : Producer α) : List (POp α) → Bool
  | [] => true
  | POp.prod a :: ops => acksMonotone (p.produce a) ops
  | POp.ack h s :: ops =>
    (decide (s ≤ p.seq)
      && p.paths.all fun x => !(x.hdl == h) || decide (x.acked ≤ s))
      && acksMonotone (p.handle_ack h s) ops

/-- Invariant tying a producer state to the ghost log of produced events:
paths exist, all acked values are bounded by the counter, the log's
sequence numbers are exactly 1, 2, ..., seq_, and the retransmission buffer
holds exactly the produced events beyond the minimum acked value. -/
def PInv (p : Producer α) (log : List (Event α)) : Prop :=
  p.paths ≠ [] ∧
  (∀ x ∈ p.paths, x.acked ≤ p.seq) ∧
  log.map Event.seq = List.range' 1 p.seq ∧
  p.buf = log.filter fun e => Producer.minAcked p.paths < e.seq

/-- C1 counterexample inputs: one path for handle 0, two produced events,
then acks 2 followed by 1 (both bounded by the claim's side condition). -/
def c1Producer : Producer Nat := ⟨0, [], [⟨0, 1, 0⟩]⟩

def c1Ops : List (POp Nat) := [POp.prod 10, POp.prod 20, POp.ack 0 2, POp.ack 0 1]

/-- Messages a consumer sends to the producer. -/
inductive CMsg (α : Type) where
  | cumulativeAck (seq : Nat)
  | nack (seqs : List Nat)
  deriving DecidableEq, Repr

/-- State of channel::consumer: `next_seq_` (starting at 0), the reorder
buffer `buf_`, the tick counter `tick_` (uint64), `last_tick_seq_`,
`idle_ticks_` (uint8), and the `ack_interval_` / `nack_timeout_`
parameters. -/
structure Consumer (α : Type) where
  nextSeq : Nat
  buf : List (Event α)
  ticks : Nat
  lastTickSeq : Nat
  idleTicks : Nat
  ackInterval : Nat
  nackTimeout : Nat
  deriving DecidableEq, Repr

namespace Consumer

variable {α : Type}

/-- The loop inside try_consume_buffer: consume buffered events while the
head's sequence number equals `next_seq_`, advancing the counter.  Returns
the new counter, the remaining buffer, and the payloads delivered to the
application, each tagged with the sequence number at which it was
delivered. -/
def consumeLoop : Nat → List (Event α) → Nat × List (Event α) × List (Nat × α)
  | next, [] => (next, [], [])
  | next, e :: rest =>
    if e.seq = next then
      let r := consumeLoop (next + 1) rest
      (r.1, r.2.1, (e.seq, e.content) :: r.2.2)
    else (next, e :: rest, [])

/-- channel::consumer::try_consume_buffer: deliver the longest buffered
prefix matching `next_seq_, next_seq_ + 1, ...` and erase it. -/
def try_consume_buffer (c : Consumer α) : Consumer α × List (Nat × α) :=
  let r := consumeLoop c.nextSeq c.buf
  ({ c with nextSeq := r.1, buf := r.2.1 }, r.2.2)

/-- channel::consumer::handle_handshake: offsets not below `next_seq_` set
`next_seq_ = offset + 1` and drain the buffer; stale handshakes are
ignored. -/
def handle_handshake (c : Consumer α) (offset : Nat) : Consumer α × List (Nat × α) :=
  if c.nextSeq ≤ offset then try_consume_buffer { c with nextSeq := offset + 1 }
  else (c, [])

/-- The ordered, deduplicating insertion in channel::consumer::handle_event:
find the first entry with `seq` at least the incoming one; append when there
is none, do nothing on an exact match, insert before it otherwise. -/
def insertOrdered (buf : List (Event α)) (seq : Nat) (payload : α) : List (Event α) :=
  match buf with
  | [] => [⟨seq, payload⟩]
  | e :: rest =>
    if seq ≤ e.seq then
      if e.seq = seq then e :: rest else ⟨seq, payload⟩ :: e :: rest
    else e :: insertOrdered rest seq payload

/-- channel::consumer::handle_event: deliver on an exact match and drain
the buffer, buffer (ordered, deduplicated) events from the future, and
silently discard events below `next_seq_`. -/
def handle_event (c : Consumer α) (seq : Nat) (payload : α) :
    Consumer α × List (Nat × α) :=
  if c.nextSeq = seq then
    let r := try_consume_buffer { c with nextSeq := c.nextSeq + 1 }
    (r.1, (seq, payload) :: r.2)
  else if c.nextSeq < seq then
    ({ c with buf := insertOrdered c.buf seq payload }, [])
  else (c, [])

/-- channel::consumer::send_ack: `cumulative_ack{next_seq_ > 0 ? next_seq_ - 1 : 0}`. -/
def send_ack_msg (c : Consumer α) : CMsg α :=
  CMsg.cumulativeAck (if 0 < c.nextSeq then c.nextSeq - 1 else 0)

/-- The `generate` closure in channel::consumer::tick: for every buffered
event, emit the sequence numbers from the running counter up to (excluding)
the event's own, then move the counter past it. -/
def gapGen (i : Nat) : List (Event α) → List Nat
  | [] => []
  | e :: rest => List.range' i (e.seq - i) ++ gapGen (max i e.seq + 1) rest

/-- channel::consumer::tick.  The tick counter is uint64 and `idle_ticks_`
uint8, hence the moduli (18446744073709551616 = 2^64). -/
def ctick (c : Consumer α) : Consumer α × List (CMsg α) :=
  let progressed := c.lastTickSeq < c.nextSeq
  let c1 := { c with lastTickSeq := c.nextSeq,
                     ticks := (c.ticks + 1) % 18446744073709551616 }
  if progressed then
    let c2 := if 0 < c1.idleTicks then { c1 with idleTicks := 0 } else c1
    if c2.ticks % c2.ackInterval = 0 then (c2, [send_ack_msg c2]) else (c2, [])
  else
    let c2 := { c1 with idleTicks := (c1.idleTicks + 1) % 256 }
    if c2.buf.isEmpty = false ∧ c2.nackTimeout ≤ c2.idleTicks then
      ({ c2 with idleTicks := 0 }, [CMsg.nack (gapGen c2.nextSeq c2.buf)])
    else if c2.ticks % c2.ackInterval = 0 then (c2, [send_ack_msg c2])
    else (c2, [])

/-- Sequence number of the last buffered event (`buf_.back().seq`), 0 for an
empty buffer. -/
def lastSeq (buf : List (Event α)) : Nat :=
  (buf.getLast?.map Event.seq).getD 0

/-- Run `n` consecutive ticks, collecting the emitted messages. -/
def tickN (c : Consumer α) : Nat → Consumer α × List (CMsg α)
  | 0 => (c, [])
  | n + 1 =>
    let r := ctick c
    let r2 := tickN r.1 n
    (r2.1, r.2 ++ r2.2)

end Consumer

/-- Operations a client may perform on a consumer. -/
inductive COp (α : Type) where
  | hshake (offset : Nat)
  | ev (seq : Nat) (payload : α)
  | tk
  deriving DecidableEq, Repr

/-- One operation applied to a consumer, returning the new state and the
payloads delivered to the application. -/
def cstep (c : Consumer α) : COp α → Consumer α × List (Nat × α)
  | COp.hshake o => c.handle_handshake o
  | COp.ev s pl => c.handle_event s pl
  | COp.tk => ((Consumer.ctick c).1, [])

/-- Run a list of operations on a consumer, collecting the payloads
delivered to the application (tagged with the sequence number at which each
was delivered). -/
def crun (c : Consumer α) : List (COp α) → Consumer α × List (Nat × α)
  | [] => (c, [])
  | op :: ops =>
    let r := cstep c op
    let rest := crun r.1 ops
    (rest.1, r.2 ++ rest.2)

/-- Restriction of a call trace to one producer path: every handshake
carries the path's fixed offset `o` and every event a sequence number
beyond it. -/
def copOK (o : Nat) : COp α → Bool
  | COp.hshake off => off == o
  | COp.ev s _ => decide (o < s)
  | COp.tk => true

/-- C7 counterexample input: a fresh consumer with ack_interval 1 and
nack_timeout 1. -/
def c7Consumer : Consumer Nat := ⟨0, [], 0, 0, 0, 1, 1⟩

/-- Invariant of a consumer attached to a single producer path with offset
`o`: the reorder buffer is strictly sorted, every buffered entry is beyond
both the offset and `next_seq_`, and `next_seq_` is 0 until the handshake
arrives and beyond `o` afterwards. -/
def CInv (o : Nat) (c : Consumer α) : Prop :=
  List.Pairwise (fun e f : Event α => e.seq < f.seq) c.buf ∧
  (∀ e ∈ c.buf, o < e.seq) ∧
  (∀ e ∈ c.buf, c.nextSeq < e.seq) ∧
  (c.nextSeq = 0 ∨ o < c.nextSeq)

/-- C2 counterexample input: a fresh consumer. -/
def c2Consumer : Consumer Nat := ⟨0, [], 0, 0, 0, 1, 1⟩

/-!
Master state machine (master actor translation unit).  Keys and values are
an abstract type `δ` with decidable equality (`data` in the source);
timestamps and timespans are Nat; actor handles are Nat.  The storage
backend is the abstract interface of §4.2 consumed by the master; its
memory implementation is not among the sources, so its operations are
modelled from the spec below.
-/

/-- Store events emitted to local observers: insert, update (carrying the
old value), erase, expire. -/
inductive SEvent (δ : Type) where
  | insert (key value : δ) (expiry : Option Nat) (publisher : Nat)
  | update (key oldValue newValue : δ) (expiry : Option Nat) (publisher : Nat)
  | erase (key : δ) (publisher : Nat)
  | expire (key : δ) (publisher : Nat)
  deriving DecidableEq, Repr

/-- The internal_command variant the master dispatches on. -/
inductive Cmd (δ : Type) where
  | put (key value : δ) (expiry : Option Nat) (publisher : Nat)
  | putUnique (key value : δ) (expiry : Option Nat) (publisher : Nat)
      (who : Nat) (reqId : Nat)
  | erase (key : δ) (publisher : Nat)
  | expire (key : δ) (publisher : Nat)
  | add (key value : δ) (initType : Nat) (expiry : Option Nat) (publisher : Nat)
  | subtract (key value : δ) (expiry : Option Nat) (publisher : Nat)
  | snapshot (remoteCore remoteClone : Option Nat)
  | snapshotSync (remoteClone : Option Nat)
  | set (snap : List (δ × δ))
  | clear (publisher : Nat)
  | none
  deriving DecidableEq, Repr

/-- Observable effects of one master command: replies to a requester,
broadcasts to the clones topic, emitted store events, scheduled expiry
reminders (clock->send_later), monitor registrations and the direct
set_command delivery to a new clone. -/
inductive MOut (δ : Type) where
  | reply (who : Nat) (flag : Bool) (reqId : Nat)
  | broadcast (cmd : Cmd δ)
  | emit (ev : SEvent δ)
  | remind (expiry : Nat) (key : δ)
  | monitor (core : Nat)
  | sendSet (clone : Nat) (snap : List (δ × δ))
  deriving DecidableEq, Repr

/-- Master state: the backend store (a finite map from keys to value and
optional absolute expiry) and the clone registry (core address to clone
handle). -/
structure Master (δ : Type) where
  store : List (δ × δ × Option Nat)
  clones : List (Nat × Nat)
  deriving DecidableEq, Repr

namespace Master

variable {δ : Type} [DecidableEq δ]

/-- Modelled from the spec: backend `get(key)` of §4.2 (the concrete memory
backend is not among the sources).  Returns the stored value and expiry for
the key, if present. -/
def getB (st : List (δ × δ × Option Nat)) (k : δ) : Option (δ × Option Nat) :=
  (st.find? fun e => e.1 = k).map fun e => e.2

/-- Modelled from the spec: backend `exists(key)` of §4.2. -/
def existsB (st : List (δ × δ × Option Nat)) (k : δ) : Bool :=
  (st.find? fun e => e.1 = k).isSome

/-- Modelled from the spec: backend `put(key, val, expiry?)` of §4.2, which
overwrites any previous entry and always succeeds in the memory backend. -/
def putB (st : List (δ × δ × Option Nat)) (k v : δ) (et : Option Nat) :
    List (δ × δ × Option Nat) :=
  (k, v, et) :: st.filter fun e => ¬ e.1 = k

/-- Modelled from the spec: backend `erase(key)` of §4.2. -/
def eraseB (st : List (δ × δ × Option Nat)) (k : δ) : List (δ × δ × Option Nat) :=
  st.filter fun e => ¬ e.1 = k

/-- Modelled from the spec: backend `subtract(key, val, expiry?)` of §4.2,
which fails when the key is absent or the value algebra rejects the
operands (`sub` abstracts the data-dependent subtraction). -/
def subtractB (sub : δ → δ → Option δ) (st : List (δ × δ × Option Nat))
    (k v : δ) (et : Option Nat) : Option (List (δ × δ × Option Nat)) :=
  match getB st k with
  | Option.none => Option.none
  | some (old, _) => (sub old v).map fun nv => putB st k nv et

/-- Modelled from the spec: backend `add(key, val, init_type, expiry?)` of
§4.2 (`addFn` abstracts the data-dependent addition, initialising a missing
key from the additive identity of `init_type`). -/
def addB (addFn : Option δ → δ → Nat → Option δ) (st : List (δ × δ × Option Nat))
    (k v : δ) (initType : Nat) (et : Option Nat) : Option (List (δ × δ × Option Nat)) :=
  (addFn ((getB st k).map fun e => e.1) v initType).map fun nv => putB st k nv et

/-- Modelled from the spec: backend `keys()` of §4.2. -/
def keysB (st : List (δ × δ × Option Nat)) : List δ :=
  st.map fun e => e.1

/-- Modelled from the spec: backend `snapshot()` of §4.2. -/
def snapshotB (st : List (δ × δ × Option Nat)) : List (δ × δ) :=
  st.map fun e => (e.1, e.2.1)

/-- The reminder scheduled by master_state::remind for commands carrying an
expiry. -/
def remindOf (expiry : Option Nat) (k : δ) : List (MOut δ) :=
  match expiry with
  | Option.none => []
  | some d => [MOut.remind d k]

/-- The master command dispatcher (master_state::operator() overloads).
`clock` is the current time (clock->now()); expiries in commands are
timespans and become absolute (clock-relative) timestamps on the backend. -/
def masterCmd (sub : δ → δ → Option δ) (addFn : Option δ → δ → Nat → Option δ)
    (clock : Nat) (ms : Master δ) : Cmd δ → Master δ × List (MOut δ)
  | Cmd.none => (ms, [])
  | Cmd.put k v exp pub =>
    let et := exp.map (clock + ·)
    let old := getB ms.store k
    ({ ms with store := putB ms.store k v et },
      remindOf exp k
        ++ [match old with
            | some o => MOut.emit (SEvent.update k o.1 v exp pub)
            | Option.none => MOut.emit (SEvent.insert k v exp pub)]
        ++ [MOut.broadcast (Cmd.put k v exp pub)])
  | Cmd.putUnique k v exp pub who rid =>
    if existsB ms.store k then (ms, [MOut.reply who false rid])
    else
      let et := exp.map (clock + ·)
      ({ ms with store := putB ms.store k v et },
        [MOut.reply who true rid] ++ remindOf exp k
          ++ [MOut.emit (SEvent.insert k v exp pub),
              MOut.broadcast (Cmd.put k v exp pub)])
  | Cmd.erase k pub =>
    ({ ms with store := eraseB ms.store k },
      [MOut.emit (SEvent.erase k pub), MOut.broadcast (Cmd.erase k pub)])
  | Cmd.expire _ _ => (ms, [])
  | Cmd.add k v initType exp pub =>
    let et := exp.map (clock + ·)
    let old := (getB ms.store k).map fun e => e.1
    match addB addFn ms.store k v initType et with
    | Option.none => (ms, [])
    | some st1 =>
      match getB st1 k with
      | Option.none => ({ ms with store := st1 }, [])
      | some nv =>
        ({ ms with store := st1 },
          remindOf exp k
            ++ [match old with
                | some o => MOut.emit (SEvent.update k o nv.1 Option.none pub)
                | Option.none => MOut.emit (SEvent.insert k nv.1 Option.none pub)]
            ++ [MOut.broadcast (Cmd.put k nv.1 Option.none pub)])
  | Cmd.subtract k v exp pub =>
    let et := exp.map (clock + ·)
    match getB ms.store k with
    | Option.none => (ms, [])
    | some old =>
      match subtractB sub ms.store k v et with
      | Option.none => (ms, [])
      | some st1 =>
        match getB st1 k with
        | Option.none => ({ ms with store := st1 }, [])
        | some nv =>
          ({ ms with store := st1 },
            remindOf exp k
              ++ [MOut.emit (SEvent.update k old.1 nv.1 Option.none pub)]
              ++ [MOut.broadcast (Cmd.put k nv.1 Option.none pub)])
  | Cmd.snapshot rc rcl =>
    match rc, rcl with
    | some core, some clone =>
      ({ ms with clones := if ms.clones.any fun e => e.1 = core then ms.clones
                           else (core, clone) :: ms.clones },
        [MOut.monitor core, MOut.broadcast (Cmd.snapshotSync (some clone)),
         MOut.sendSet clone (snapshotB ms.store)])
    | _, _ => (ms, [])
  | Cmd.snapshotSync _ => (ms, [])
  | Cmd.set _ => (ms, [])
  | Cmd.clear pub =>
    ({ ms with store := [] },
      (keysB ms.store).map (fun k => MOut.emit (SEvent.erase k pub))
        ++ [MOut.broadcast (Cmd.clear pub)])

end Master

/-!
address::mask (src/address.cc).  An address is 16 bytes in network byte
order.  The source builds a `uint32_t mask[4]`, converts the partial word
with caf::detail::to_network_order — a byte swap on the little-endian hosts
the build targets (BROKER_BIG_ENDIAN unset) — and ANDs the four words
obtained by reinterpreting the byte array as native (little-endian)
uint32_t.  We model the bytes as a list of 16 naturals below 256, the
little-endian loads and stores explicitly, and the masking per word.
-/

namespace Address

/-- bit_mask32 from src/address.cc: the low `bottomBits` bits set,
saturating at 32. -/
def bit_mask32 (bottomBits : Nat) : Nat :=
  if 32 ≤ bottomBits then 0xffffffff else 2 ^ bottomBits - 1

/-- Byte swap of a 32-bit word (caf::detail::to_network_order on a
little-endian host). -/
def byteswap32 (x : Nat) : Nat :=
  x % 256 * 2 ^ 24 + x / 2 ^ 8 % 256 * 2 ^ 16 + x / 2 ^ 16 % 256 * 2 ^ 8
    + x / 2 ^ 24 % 256

/-- The mask[4] array computed by address::mask for `topBits` kept bits:
all-ones before the word holding the boundary, the swapped complement of
`bit_mask32 (32 - topBits % 32)` there, zeroes after. -/
def maskArray (topBits : Nat) : List Nat :=
  let q := topBits / 32
  let r := topBits % 32
  (List.range 4).map fun i =>
    if i < q then 0xffffffff
    else if i = q then
      byteswap32 (Nat.land 0xffffffff (0xffffffff - bit_mask32 (32 - r)))
    else 0

/-- The reinterpret_cast of the 16-byte array as native little-endian
uint32_t words. -/
def toWords : List Nat → List Nat
  | b0 :: b1 :: b2 :: b3 :: rest =>
    (b0 + 2 ^ 8 * b1 + 2 ^ 16 * b2 + 2 ^ 24 * b3) :: toWords rest
  | _ => []

/-- Little-endian store of a uint32 word back into 4 bytes. -/
def storeLE (w : Nat) : List Nat :=
  [w % 256, w / 2 ^ 8 % 256, w / 2 ^ 16 % 256, w / 2 ^ 24 % 256]

/-- address::mask: reject more than 128 kept bits (returning false and
leaving the bytes untouched), otherwise AND each word with the mask
array. -/
def mask (b : List Nat) (topBitsToKeep : Nat) : Bool × List Nat :=
  if 128 < topBitsToKeep then (false, b)
  else
    (true,
      (((toWords b).zipWith (fun w m => Nat.land w m) (maskArray topBitsToKeep)).map
        storeLE).flatten)

end Address


namespace ListMin

theorem foldl_min_le_init (l : List Nat) (s : Nat) : l.foldl min s ≤ s := by
  induction l generalizing s with
  | nil => exact Nat.le_refl s
  | cons x xs ih => exact Nat.le_trans (ih (min s x)) (Nat.min_le_left s x)

theorem foldl_min_le_mem (l : List Nat) (s : Nat) {x : Nat} (hx : x ∈ l) :
    l.foldl min s ≤ x := by
  induction l generalizing s with
  | nil => cases hx
  | cons y ys ih =>
    rcases List.mem_cons.mp hx with h | h
    · subst h
      exact Nat.le_trans (foldl_min_le_init ys (min s x)) (Nat.min_le_right s x)
    · exact ih (min s y) h

theorem le_foldl_min (l : List Nat) (s t : Nat) (hs : t ≤ s)
    (h : ∀ x ∈ l, t ≤ x) : t ≤ l.foldl min s := by
  induction l generalizing s with
  | nil => exact hs
  | cons y ys ih =>
    exact ih (min s y) (Nat.le_min.mpr ⟨hs, h y (List.mem_cons_self y ys)⟩)
      fun x hx => h x (List.mem_cons_of_mem y hx)

theorem foldl_min_mem (l : List Nat) (s : Nat) :
    l.foldl min s = s ∨ l.foldl min s ∈ l := by
  induction l generalizing s with
  | nil => exact Or.inl rfl
  | cons y ys ih =>
    rcases ih (min s y) with h | h
    · rcases Nat.le_total s y with hsy | hys
      · exact Or.inl (by rw [List.foldl_cons, h, Nat.min_eq_left hsy])
      · refine Or.inr (List.mem_cons.mpr (Or.inl ?_))
        rw [List.foldl_cons, h, Nat.min_eq_right hys]
    · exact Or.inr (List.mem_cons_of_mem y h)

end ListMin

namespace Producer

variable {α : Type}

theorem minAcked_eq_foldl (x : Path) (xs : List Path) :
    minAcked (x :: xs) = (xs.map Path.acked).foldl min x.acked := by
  rw [List.foldl_map]
  rfl

theorem minAcked_le_acked {paths : List Path} {x : Path} (hx : x ∈ paths) :
    minAcked paths ≤ x.acked := by
  match paths, hx with
  | y :: ys, hx =>
    rw [minAcked_eq_foldl]
    rcases List.mem_cons.mp hx with h | h
    · subst h
      exact ListMin.foldl_min_le_init _ _
    · exact ListMin.foldl_min_le_mem _ _ (List.mem_map_of_mem Path.acked h)

theorem le_minAcked {paths : List Path} {t : Nat} (hne : paths ≠ [])
    (h : ∀ x ∈ paths, t ≤ x.acked) : t ≤ minAcked paths := by
  match paths, hne with
  | y :: ys, _ =>
    rw [minAcked_eq_foldl]
    refine ListMin.le_foldl_min _ _ _ (h y (List.mem_cons_self y ys)) ?_
    intro a ha
    rcases List.mem_map.mp ha with ⟨z, hz, rfl⟩
    exact h z (List.mem_cons_of_mem y hz)

theorem minAcked_mem {paths : List Path} (hne : paths ≠ []) :
    ∃ x ∈ paths, minAcked paths = x.acked := by
  match paths, hne with
  | y :: ys, _ =>
    rw [minAcked_eq_foldl]
    rcases ListMin.foldl_min_mem (ys.map Path.acked) y.acked with h | h
    · exact ⟨y, List.mem_cons_self y ys, h⟩
    · rcases List.mem_map.mp h with ⟨z, hz, hzz⟩
      exact ⟨z, List.mem_cons_of_mem y hz, hzz.symm⟩

/-- The single fold in handle_ack equals a plain minimum fold over the
acknowledged numbers of the non-matching paths. -/
theorem ack_fold_eq (paths : List Path) (hdl s : Nat) :
    paths.foldl (fun a x => if x.hdl == hdl then a else min x.acked a) s
      = ((paths.filter fun x => !(x.hdl == hdl)).map Path.acked).foldl min s := by
  induction paths generalizing s with
  | nil => rfl
  | cons x xs ih =>
    rw [List.foldl_cons, List.filter_cons]
    cases hb : (x.hdl == hdl)
    · rw [if_neg (by simp [hb]), if_pos (by simp [hb]), List.map_cons,
        List.foldl_cons, Nat.min_comm]
      exact ih (min s x.acked)
    · rw [if_pos (by simp [hb]), if_neg (by simp [hb])]
      exact ih s

end Producer

namespace ChannelLemmas

variable {α : Type}
open Broker

/-- Dropping the not-yet-beyond-`b` prefix from a strictly seq-sorted list
already filtered beyond `a` yields the list filtered beyond `b`, for `a ≤ b`. -/
theorem filter_dropWhile_sorted (l : List (Event α)) (a b : Nat) (hab : a ≤ b) :
    List.Pairwise (fun e f => e.seq < f.seq) l →
    ((l.filter fun e => a < e.seq).dropWhile fun e => !(b < e.seq))
      = l.filter fun e => b < e.seq := by
  induction l with
  | nil => intro _; rfl
  | cons e rest ih =>
    intro hs
    obtain ⟨hrest, hs2⟩ := List.pairwise_cons.mp hs
    rw [List.filter_cons, List.filter_cons]
    by_cases hb : b < e.seq
    · have ha : a < e.seq := Nat.lt_of_le_of_lt hab hb
      rw [if_pos (by simpa using ha), if_pos (by simpa using hb),
        List.dropWhile_cons, if_neg (by simp [hb])]
      refine congrArg (e :: ·) (List.filter_congr fun f hf => ?_)
      have h1 : b < f.seq := Nat.lt_trans hb (hrest f hf)
      have h2 : a < f.seq := Nat.lt_of_le_of_lt hab h1
      simp [h1, h2]
    · by_cases ha : a < e.seq
      · rw [if_pos (by simpa using ha), if_neg (by simpa using hb),
          List.dropWhile_cons, if_pos (by simp [hb])]
        exact ih hs2
      · rw [if_neg (by simpa using ha), if_neg (by simpa using hb)]
        exact ih hs2

/-- A dropWhile with a threshold below the filter bound removes nothing. -/
theorem dropWhile_filter_le (l : List (Event α)) (a b : Nat) (hba : b ≤ a) :
    ((l.filter fun e => a < e.seq).dropWhile fun e => !(b < e.seq))
      = l.filter fun e => a < e.seq := by
  induction l with
  | nil => rfl
  | cons e rest ih =>
    rw [List.filter_cons]
    by_cases ha : a < e.seq
    · have hb : b < e.seq := Nat.lt_of_le_of_lt hba ha
      rw [if_pos (by simpa using ha), List.dropWhile_cons, if_neg (by simp [hb])]
    · rw [if_neg (by simpa using ha)]
      exact ih

end ChannelLemmas

section ClaimC4

open Producer ListMin

variable {α : Type}


/-- C4: the claim that `handle_ack(handle, seq)` with `seq > next_seq` has
the same effect on path acked values, buffer contents and `idle()` as
`handle_ack(handle, next_seq)` is false: the code stores the raw `seq` in
the path, so after acking 5 on a producer at `seq_ = 0` the path records 5
(not 0) and `idle()` flips from true to false. -/
theorem handle_ack_overshoot_cex :
    c4Producer.seq < 5 ∧
    (c4Producer.handle_ack 0 5).paths ≠ (c4Producer.handle_ack 0 0).paths ∧
    Producer.idle (c4Producer.handle_ack 0 5)
      ≠ Producer.idle (c4Producer.handle_ack 0 0) := by
  decide

/-- C4 (amended): for any producer whose buffered events do not exceed
`seq_` (true of every reachable state), an ack with `seq > next_seq` prunes
the buffer exactly as an ack of `next_seq` would; the path itself records
the raw overshooting `seq`. -/
theorem handle_ack_overshoot (p : Producer α) (hdl s : Nat)
    (hbuf : ∀ e ∈ p.buf, e.seq ≤ p.seq) (hs : p.seq < s) :
    (p.handle_ack hdl s).buf = (p.handle_ack hdl p.seq).buf ∧
    (p.handle_ack hdl s).paths
      = (p.paths.map fun x => if x.hdl == hdl then { x with acked := s } else x) := by
  refine ⟨?_, rfl⟩
  show (p.buf.dropWhile fun e =>
        !(p.paths.foldl (fun a x => if x.hdl == hdl then a else min x.acked a) s < e.seq))
      = p.buf.dropWhile fun e =>
        !(p.paths.foldl (fun a x => if x.hdl == hdl then a else min x.acked a) p.seq < e.seq)
  rw [ack_fold_eq, ack_fold_eq]
  rcases foldl_min_mem ((p.paths.filter fun x => !(x.hdl == hdl)).map Path.acked) p.seq
    with h | h
  · have hub : ∀ x ∈ (p.paths.filter fun x => !(x.hdl == hdl)).map Path.acked,
        p.seq ≤ x := fun x hx => h ▸ foldl_min_le_mem _ p.seq hx
    have hAs : p.seq ≤ ((p.paths.filter fun x => !(x.hdl == hdl)).map Path.acked).foldl
        min s := le_foldl_min _ s p.seq (Nat.le_of_lt hs) hub
    rw [List.dropWhile_eq_nil_iff.mpr fun e he => by
        simpa using Nat.le_trans (hbuf e he) hAs,
      List.dropWhile_eq_nil_iff.mpr fun e he => by
        simpa using Nat.le_trans (hbuf e he) (Nat.le_of_eq h.symm)]
  · have h1 : ((p.paths.filter fun x => !(x.hdl == hdl)).map Path.acked).foldl min s
        ≤ ((p.paths.filter fun x => !(x.hdl == hdl)).map Path.acked).foldl min p.seq :=
      foldl_min_le_mem _ s h
    have h2 : ((p.paths.filter fun x => !(x.hdl == hdl)).map Path.acked).foldl min p.seq
        ≤ ((p.paths.filter fun x => !(x.hdl == hdl)).map Path.acked).foldl min s :=
      le_foldl_min _ s _ (Nat.le_trans (foldl_min_le_init _ p.seq) (Nat.le_of_lt hs))
        fun x hx => foldl_min_le_mem _ p.seq hx
    rw [Nat.le_antisymm h1 h2]

/-- C4 witness: a producer at `seq_ = 2` holding event 2, acked with the
overshooting value 5. -/
theorem handle_ack_overshoot_witness :
    ((⟨2, [⟨2, 9⟩], [⟨0, 1, 1⟩]⟩ : Producer Nat).handle_ack 0 5).buf
        = ((⟨2, [⟨2, 9⟩], [⟨0, 1, 1⟩]⟩ : Producer Nat).handle_ack 0 2).buf ∧
    ((⟨2, [⟨2, 9⟩], [⟨0, 1, 1⟩]⟩ : Producer Nat).handle_ack 0 5).paths
        = ((⟨2, [⟨2, 9⟩], [⟨0, 1, 1⟩]⟩ : Producer Nat).paths.map
            fun x => if x.hdl == 0 then { x with acked := 5 } else x) :=
  handle_ack_overshoot _ 0 5 (by decide) (by decide)

end ClaimC4

section ClaimC5

open Producer

variable {α : Type}

/-- C5: handle_nack on a registered path with a non-empty ascending list:
a leading 0 re-sends `handshake{offset}` to that consumer with no state
change; otherwise `seqs.front() - 1` is applied as an implicit ack (path
update and buffer pruning) and every requested sequence number is either
re-sent from the pruned buffer or answered with `retransmit_failed`. -/
theorem handle_nack_spec (p : Producer α) (hdl s : Nat) (rest : List Nat)
    (pa : Path) (hfind : p.find_path hdl = some pa)
    (hsorted : List.Pairwise (· < ·) (s :: rest)) :
    p.handle_nack hdl (s :: rest)
      = if s = 0 then (p, [PMsg.handshake pa.offset])
        else (p.handle_ack hdl (s - 1),
              (s :: rest).map fun q =>
                match (p.handle_ack hdl (s - 1)).find_event q with
                | some e => PMsg.event e
                | none => PMsg.retransmitFailed q) := by
  by_cases h : s = 0
  · simp [Producer.handle_nack, hfind, h]
  · simp [Producer.handle_nack, hfind, h]

/-- C5 witness: producer at `seq_ = 3` whose buffer only retains event 3
(events 1 and 2 pruned), nacked with `[2, 3]`: sequence 1 is implicitly
acked, 2 answers retransmit_failed, 3 is re-sent. -/
theorem handle_nack_spec_witness :
    (⟨3, [⟨3, 30⟩], [⟨7, 1, 1⟩]⟩ : Producer Nat).handle_nack 7 [2, 3]
      = if (2 : Nat) = 0
        then ((⟨3, [⟨3, 30⟩], [⟨7, 1, 1⟩]⟩ : Producer Nat), [PMsg.handshake 1])
        else ((⟨3, [⟨3, 30⟩], [⟨7, 1, 1⟩]⟩ : Producer Nat).handle_ack 7 (2 - 1),
              ([2, 3] : List Nat).map fun q =>
                match ((⟨3, [⟨3, 30⟩], [⟨7, 1, 1⟩]⟩ : Producer Nat).handle_ack 7
                    (2 - 1)).find_event q with
                | some e => PMsg.event e
                | none => PMsg.retransmitFailed q) :=
  handle_nack_spec _ 7 2 [3] ⟨7, 1, 1⟩ (by decide) (by decide)

end ClaimC5

section ClaimC1

variable {α : Type}

theorem pairwise_of_log {log : List (Event α)} {n : Nat}
    (h : log.map Event.seq = List.range' 1 n) :
    List.Pairwise (fun e f : Event α => e.seq < f.seq) log := by
  have := List.pairwise_lt_range' 1 n
  rw [← h] at this
  exact List.pairwise_map.mp this

theorem PInv_produce {p : Producer α} {log : List (Event α)} (h : PInv p log) (a : α) :
    PInv (p.produce a) (log ++ [⟨p.seq + 1, a⟩]) := by
  obtain ⟨h1, h2, h3, h4⟩ := h
  obtain ⟨y, hy, hym⟩ := Producer.minAcked_mem h1
  refine ⟨h1, fun x hx => Nat.le_succ_of_le (h2 x hx), ?_, ?_⟩
  · show (log ++ [(⟨p.seq + 1, a⟩ : Event α)]).map Event.seq
        = List.range' 1 (p.seq + 1)
    rw [List.map_append, h3, List.range'_concat 1 p.seq]
    simp [Nat.add_comm]
  · show p.buf ++ [(⟨p.seq + 1, a⟩ : Event α)]
        = (log ++ [(⟨p.seq + 1, a⟩ : Event α)]).filter
            fun e => Producer.minAcked p.paths < e.seq
    rw [List.filter_append, ← h4]
    have hlt : Producer.minAcked p.paths < p.seq + 1 :=
      Nat.lt_succ_of_le (hym ▸ h2 y hy)
    simp [hlt]

theorem PInv_ack {p : Producer α} {log : List (Event α)} {hdl s : Nat}
    (h : PInv p log) (hs : s ≤ p.seq)
    (hmono : ∀ x ∈ p.paths, (x.hdl == hdl) = true → x.acked ≤ s) :
    PInv (p.handle_ack hdl s) log := by
  obtain ⟨h1, h2, h3, h4⟩ := h
  have hpairwise := pairwise_of_log h3
  have hbufRw : (p.handle_ack hdl s).buf
      = (log.filter fun e => Producer.minAcked p.paths < e.seq).dropWhile fun e =>
          !(((p.paths.filter fun x => !(x.hdl == hdl)).map Path.acked).foldl min s
            < e.seq) := by
    show (p.buf.dropWhile fun e =>
        !(p.paths.foldl (fun a x => if x.hdl == hdl then a else min x.acked a) s
          < e.seq)) = _
    rw [Producer.ack_fold_eq, h4]
  have hpaths : (p.handle_ack hdl s).paths
      = p.paths.map fun x => if x.hdl == hdl then { x with acked := s } else x := rfl
  have hne : (p.handle_ack hdl s).paths ≠ [] := by
    rw [hpaths]
    simpa [List.map_eq_nil_iff] using h1
  have hbound : ∀ x ∈ (p.handle_ack hdl s).paths, x.acked ≤ (p.handle_ack hdl s).seq := by
    rw [hpaths]
    intro x hx
    rcases List.mem_map.mp hx with ⟨z, hz, rfl⟩
    show (if z.hdl == hdl then { z with acked := s } else z).acked ≤ p.seq
    cases hb : (z.hdl == hdl)
    · simpa [hb] using h2 z hz
    · simpa [hb] using hs
  refine ⟨hne, hbound, h3, ?_⟩
  by_cases hmatch : ∃ y ∈ p.paths, (y.hdl == hdl) = true
  · obtain ⟨y, hy, hyh⟩ := hmatch
    have hAles : ∀ x ∈ (p.paths.filter fun x => !(x.hdl == hdl)).map Path.acked,
        Producer.minAcked p.paths ≤ x := by
      intro x hx
      rcases List.mem_map.mp hx with ⟨z, hz, rfl⟩
      exact Producer.minAcked_le_acked (List.mem_filter.mp hz).1
    have hm0s : Producer.minAcked p.paths ≤ s :=
      Nat.le_trans (Producer.minAcked_le_acked hy) (hmono y hy hyh)
    have hm0A : Producer.minAcked p.paths
        ≤ ((p.paths.filter fun x => !(x.hdl == hdl)).map Path.acked).foldl min s :=
      ListMin.le_foldl_min _ s _ hm0s hAles
    have hAeq : ((p.paths.filter fun x => !(x.hdl == hdl)).map Path.acked).foldl min s
        = Producer.minAcked (p.handle_ack hdl s).paths := by
      refine Nat.le_antisymm ?_ ?_
      · refine Producer.le_minAcked hne ?_
        intro x hx
        rw [hpaths] at hx
        rcases List.mem_map.mp hx with ⟨z, hz, rfl⟩
        cases hb : (z.hdl == hdl)
        · have hzL : z.acked
              ∈ (p.paths.filter fun x => !(x.hdl == hdl)).map Path.acked :=
            List.mem_map_of_mem Path.acked (List.mem_filter.mpr ⟨hz, by simp [hb]⟩)
          simpa [hb] using ListMin.foldl_min_le_mem _ s hzL
        · simpa [hb] using ListMin.foldl_min_le_init _ s
      · have hys : Producer.minAcked (p.handle_ack hdl s).paths ≤ s := by
          have hyy : ({ y with acked := s } : Path) ∈ (p.handle_ack hdl s).paths := by
            rw [hpaths]
            have := List.mem_map_of_mem
              (fun x => if x.hdl == hdl then { x with acked := s } else x) hy
            simpa [hyh] using this
          simpa using Producer.minAcked_le_acked hyy
        refine ListMin.le_foldl_min _ s _ hys ?_
        intro x hx
        rcases List.mem_map.mp hx with ⟨z, hz, rfl⟩
        obtain ⟨hzp, hzb⟩ := List.mem_filter.mp hz
        have hzb2 : ¬ z.hdl = hdl := by simpa using hzb
        have hzz : z ∈ (p.handle_ack hdl s).paths := by
          rw [hpaths]
          have := List.mem_map_of_mem
            (fun x => if x.hdl == hdl then { x with acked := s } else x) hzp
          simpa [hzb2] using this
        exact Producer.minAcked_le_acked hzz
    rw [hbufRw, ChannelLemmas.filter_dropWhile_sorted log _ _ hm0A hpairwise, hAeq]
  · push_neg at hmatch
    have hnomatch : ∀ x ∈ p.paths, (x.hdl == hdl) = false := by
      intro x hx
      cases hb : (x.hdl == hdl)
      · rfl
      · exact absurd hb (hmatch x hx)
    have hpid : (p.handle_ack hdl s).paths = p.paths := by
      rw [hpaths]
      refine (List.map_congr_left fun x hx => ?_).trans (List.map_id p.paths)
      simp [hnomatch x hx]
    obtain ⟨y, hy, hym⟩ := Producer.minAcked_mem h1
    have hyL : y.acked ∈ (p.paths.filter fun x => !(x.hdl == hdl)).map Path.acked :=
      List.mem_map_of_mem Path.acked
        (List.mem_filter.mpr ⟨hy, by simp [hnomatch y hy]⟩)
    have hAm0 : ((p.paths.filter fun x => !(x.hdl == hdl)).map Path.acked).foldl min s
        ≤ Producer.minAcked p.paths :=
      hym ▸ ListMin.foldl_min_le_mem _ s hyL
    rw [hbufRw, ChannelLemmas.dropWhile_filter_le log _ _ hAm0, hpid]

theorem PInv_prun (ops : List (POp α)) :
    ∀ (p : Producer α) (log : List (Event α)), PInv p log →
      acksMonotone p ops = true → PInv (prun p log ops).1 (prun p log ops).2 := by
  induction ops with
  | nil => intro p log h _; exact h
  | cons op ops ih =>
    intro p log h hops
    match op with
    | POp.prod a =>
      exact ih _ _ (PInv_produce h a) (by simpa [acksMonotone] using hops)
    | POp.ack hd s =>
      rw [show acksMonotone p (POp.ack hd s :: ops)
          = ((decide (s ≤ p.seq)
              && p.paths.all fun x => !(x.hdl == hd) || decide (x.acked ≤ s))
              && acksMonotone (p.handle_ack hd s) ops) from rfl,
        Bool.and_eq_true, Bool.and_eq_true] at hops
      obtain ⟨⟨hb, hall⟩, hrest⟩ := hops
      have hmono : ∀ x ∈ p.paths, (x.hdl == hd) = true → x.acked ≤ s := by
        intro x hx hxh
        have := List.all_eq_true.mp hall x hx
        rw [hxh] at this
        simpa using this
      exact ih _ _ (PInv_ack h (by simpa using hb) hmono) hrest


/-- C1: as stated the claim is false.  With acks bounded by `next_seq` but
not monotone (2 then 1 on the same path), the final minimum acked value is
1 yet the buffer is empty, so it does not contain the produced event with
sequence number 2 > 1. -/
theorem producer_buffer_invariant_cex :
    acksBounded c1Producer c1Ops = true ∧
    (prun c1Producer [] c1Ops).1.buf
      ≠ (prun c1Producer [] c1Ops).2.filter
          (fun e => Producer.minAcked (prun c1Producer [] c1Ops).1.paths < e.seq) := by
  decide

/-- C1 (amended): starting from a producer with a non-empty set of freshly
added paths, after any sequence of produce and handle_ack calls in which
every ack is bounded by the current `seq_` and is monotone on its path, the
retransmission buffer contains exactly the produced events whose sequence
number exceeds the minimum acked value over all paths, and the produced
sequence numbers are exactly 1, 2, ..., seq_ (strictly monotone, starting
at 1, increasing by 1 per produce). -/
theorem producer_buffer_invariant (p0 : Producer α) (ops : List (POp α))
    (hpaths : p0.paths ≠ []) (hacked : ∀ x ∈ p0.paths, x.acked = 0)
    (hseq : p0.seq = 0) (hbuf : p0.buf = [])
    (hops : acksMonotone p0 ops = true) :
    (prun p0 [] ops).1.buf
        = (prun p0 [] ops).2.filter
            (fun e => Producer.minAcked (prun p0 [] ops).1.paths < e.seq) ∧
    (prun p0 [] ops).2.map Event.seq = List.range' 1 (prun p0 [] ops).1.seq := by
  have h0 : PInv p0 [] := by
    refine ⟨hpaths, fun x hx => by rw [hacked x hx]; exact Nat.zero_le _, ?_, ?_⟩
    · rw [hseq]
      rfl
    · rw [hbuf]
      rfl
  obtain ⟨_, _, h3, h4⟩ := PInv_prun ops p0 [] h0 hops
  exact ⟨h4, h3⟩

/-- C1 witness: one path, three produced events, monotone acks 1 then 2;
events 1 and 2 are pruned and event 3 remains buffered. -/
theorem producer_buffer_invariant_witness :
    ((prun (⟨0, [], [⟨0, 1, 0⟩]⟩ : Producer Nat) []
        [POp.prod 10, POp.prod 20, POp.ack 0 1, POp.prod 30, POp.ack 0 2]).1.buf
      = (prun (⟨0, [], [⟨0, 1, 0⟩]⟩ : Producer Nat) []
          [POp.prod 10, POp.prod 20, POp.ack 0 1, POp.prod 30, POp.ack 0 2]).2.filter
          (fun e => Producer.minAcked
            (prun (⟨0, [], [⟨0, 1, 0⟩]⟩ : Producer Nat) []
              [POp.prod 10, POp.prod 20, POp.ack 0 1, POp.prod 30,
                POp.ack 0 2]).1.paths < e.seq)) ∧
    (prun (⟨0, [], [⟨0, 1, 0⟩]⟩ : Producer Nat) []
        [POp.prod 10, POp.prod 20, POp.ack 0 1, POp.prod 30, POp.ack 0 2]).2.map
        Event.seq
      = List.range' 1
          (prun (⟨0, [], [⟨0, 1, 0⟩]⟩ : Producer Nat) []
            [POp.prod 10, POp.prod 20, POp.ack 0 1, POp.prod 30,
              POp.ack 0 2]).1.seq :=
  producer_buffer_invariant _ _ (by decide) (by decide) (by decide) (by decide)
    (by decide)

end ClaimC1

section ClaimC7

open Consumer

variable {α : Type}

theorem ctick_empty (c : Consumer α) (h : c.buf = []) :
    (ctick c).1.nextSeq = c.nextSeq ∧ (ctick c).1.buf = [] ∧
    ∀ m ∈ (ctick c).2,
      m = CMsg.cumulativeAck (if 0 < c.nextSeq then c.nextSeq - 1 else 0) := by
  unfold ctick send_ack_msg
  by_cases h1 : c.lastTickSeq < c.nextSeq <;>
    by_cases h2 : (c.ticks + 1) % 18446744073709551616 % c.ackInterval = 0 <;>
    by_cases h3 : 0 < c.idleTicks <;>
    simp [h, h1, h2, h3]

theorem tickN_ack_const (n : Nat) : ∀ (c : Consumer α), c.buf = [] →
    (tickN c n).1.nextSeq = c.nextSeq ∧ (tickN c n).1.buf = [] ∧
    ∀ m ∈ (tickN c n).2,
      m = CMsg.cumulativeAck (if 0 < c.nextSeq then c.nextSeq - 1 else 0) := by
  induction n with
  | zero => exact fun c h => ⟨rfl, h, by simp [tickN]⟩
  | succ n ih =>
    intro c h
    obtain ⟨h1, h2, h3⟩ := ctick_empty c h
    obtain ⟨h4, h5, h6⟩ := ih (ctick c).1 h2
    refine ⟨h4.trans h1, h5, ?_⟩
    intro m hm
    rw [show tickN c (n + 1)
        = ((tickN (ctick c).1 n).1, (ctick c).2 ++ (tickN (ctick c).1 n).2) from rfl]
      at hm
    rcases List.mem_append.mp hm with hm | hm
    · exact h3 m hm
    · rw [h6 m hm, h1]


/-- C7: the claim is false.  After processing a handshake with offset 1
(the offset every producer assigns to its first path), the first
cumulative_ack sent on the next tick carries 1, not 0. -/
theorem consumer_first_ack_zero_cex :
    c7Consumer.nextSeq ≤ 1 ∧
    (ctick (c7Consumer.handle_handshake 1).1).2 = [CMsg.cumulativeAck 1] ∧
    (ctick (c7Consumer.handle_handshake 1).1).2 ≠ [CMsg.cumulativeAck 0] := by
  decide

/-- C7 (amended): after a consumer with an empty reorder buffer processes a
handshake with offset `o` (so `next_seq_` becomes `o + 1`), every
cumulative_ack it sends before delivering any event carries `o`, the
handshake's offset (that is `next_seq_ - 1`); it carries 0 only in the
degenerate case `o = 0`. -/
theorem consumer_first_ack_carries_offset (c : Consumer α) (o n : Nat)
    (hbuf : c.buf = []) (ho : c.nextSeq ≤ o) :
    (c.handle_handshake o).1.nextSeq = o + 1 ∧
    ∀ m ∈ (tickN (c.handle_handshake o).1 n).2, m = CMsg.cumulativeAck o := by
  have hstate : (c.handle_handshake o).1 = { c with nextSeq := o + 1, buf := [] } := by
    unfold handle_handshake try_consume_buffer
    rw [if_pos ho]
    simp [hbuf, consumeLoop]
  obtain ⟨h1, h2, h3⟩ := tickN_ack_const n (c.handle_handshake o).1 (by rw [hstate])
  refine ⟨by rw [hstate], ?_⟩
  intro m hm
  rw [h3 m hm, hstate]
  simp

/-- C7 witness: a fresh consumer processing a handshake with offset 5 and
then ticking three times only ever acks 5. -/
theorem consumer_first_ack_carries_offset_witness :
    ((⟨0, [], 0, 0, 0, 1, 1⟩ : Consumer Nat).handle_handshake 5).1.nextSeq = 5 + 1 ∧
    ((tickN ((⟨0, [], 0, 0, 0, 1, 1⟩ : Consumer Nat).handle_handshake 5).1 3).2.all
      fun m => m == CMsg.cumulativeAck 5) = true :=
  ⟨(consumer_first_ack_carries_offset _ 5 3 (by decide) (by decide)).1,
   List.all_eq_true.mpr fun m hm => by
     rw [(consumer_first_ack_carries_offset
       ((⟨0, [], 0, 0, 0, 1, 1⟩ : Consumer Nat)) 5 3 (by decide) (by decide)).2 m hm]
     decide⟩

end ClaimC7

section ClaimC6

open Consumer

variable {α : Type}

theorem lastSeq_mem (l : List (Event α)) (h : l ≠ []) :
    ∃ e ∈ l, lastSeq l = e.seq := by
  match hl : l.getLast? with
  | none => exact absurd (List.getLast?_eq_none_iff.mp hl) h
  | some e =>
    refine ⟨e, ?_, ?_⟩
    · obtain ⟨ys, rfl⟩ := List.getLast?_eq_some_iff.mp hl
      exact List.mem_append.mpr (Or.inr (List.mem_singleton.mpr rfl))
    · unfold lastSeq
      rw [hl]
      rfl

theorem gapGen_eq (buf : List (Event α)) : ∀ i : Nat,
    List.Pairwise (fun e f => e.seq < f.seq) buf →
    (∀ e ∈ buf, i ≤ e.seq) →
    gapGen i buf
      = (List.range' i (lastSeq buf - i)).filter
          (fun n => n ∉ buf.map Event.seq) := by
  induction buf with
  | nil =>
    intro i _ _
    simp [gapGen, lastSeq, Nat.zero_sub]
  | cons e rest ih =>
    intro i hp hge
    obtain ⟨hrest, hp2⟩ := List.pairwise_cons.mp hp
    have hie : i ≤ e.seq := hge e (List.mem_cons_self e rest)
    have hmax : max i e.seq = e.seq := Nat.max_eq_right hie
    rw [show gapGen i (e :: rest)
        = List.range' i (e.seq - i) ++ gapGen (max i e.seq + 1) rest from rfl, hmax]
    cases rest with
    | nil =>
      rw [show gapGen (e.seq + 1) ([] : List (Event α)) = [] from rfl, List.append_nil]
      rw [show lastSeq [e] = e.seq from rfl]
      symm
      refine List.filter_eq_self.mpr fun n hn => ?_
      obtain ⟨hn1, hn2⟩ := List.mem_range'_1.mp hn
      have hne : ¬ n = e.seq := by omega
      simp [hne]
    | cons f rest2 =>
      have hne2 : (f :: rest2) ≠ ([] : List (Event α)) := by simp
      obtain ⟨g, hg, hgs⟩ := lastSeq_mem (f :: rest2) hne2
      have heL : e.seq < lastSeq (f :: rest2) := hgs ▸ hrest g hg
      have hlastcons : lastSeq (e :: f :: rest2) = lastSeq (f :: rest2) := by
        unfold lastSeq
        rw [List.getLast?_cons_cons]
      rw [hlastcons, ih (e.seq + 1) hp2 (fun x hx => hrest x hx)]
      have h1 : i + 1 * (e.seq - i) = e.seq := by omega
      have h2 : (lastSeq (f :: rest2) - e.seq) + (e.seq - i)
          = lastSeq (f :: rest2) - i := by omega
      have hsplit : List.range' i (lastSeq (f :: rest2) - i)
          = List.range' i (e.seq - i)
            ++ List.range' e.seq (lastSeq (f :: rest2) - e.seq) := by
        calc List.range' i (lastSeq (f :: rest2) - i)
            = List.range' i ((lastSeq (f :: rest2) - e.seq) + (e.seq - i)) := by rw [h2]
          _ = List.range' i (e.seq - i)
              ++ List.range' (i + 1 * (e.seq - i)) (lastSeq (f :: rest2) - e.seq) :=
            (List.range'_append i (e.seq - i) (lastSeq (f :: rest2) - e.seq) 1).symm
          _ = List.range' i (e.seq - i)
              ++ List.range' e.seq (lastSeq (f :: rest2) - e.seq) := by rw [h1]
      rw [hsplit, List.filter_append]
      have hfirst : List.filter (fun n => n ∉ (e :: f :: rest2).map Event.seq)
          (List.range' i (e.seq - i)) = List.range' i (e.seq - i) := by
        refine List.filter_eq_self.mpr fun n hn => ?_
        obtain ⟨hn1, hn2⟩ := List.mem_range'_1.mp hn
        have hlt : n < e.seq := by omega
        have hall : ∀ x ∈ (e :: f :: rest2), ¬ n = x.seq := by
          intro x hx
          rcases List.mem_cons.mp hx with rfl | hx2
          · omega
          · have := hrest x hx2
            omega
        refine decide_eq_true ?_
        intro hmem
        rcases List.mem_map.mp hmem with ⟨x, hx, hxn⟩
        exact hall x hx hxn.symm
      have hstep : lastSeq (f :: rest2) - e.seq
          = (lastSeq (f :: rest2) - (e.seq + 1)) + 1 := by omega
      have hsecond : List.filter (fun n => n ∉ (e :: f :: rest2).map Event.seq)
          (List.range' e.seq (lastSeq (f :: rest2) - e.seq))
          = List.filter (fun n => n ∉ (f :: rest2).map Event.seq)
              (List.range' (e.seq + 1) (lastSeq (f :: rest2) - (e.seq + 1))) := by
        rw [hstep, List.range'_succ, List.filter_cons]
        rw [if_neg (by simp)]
        refine List.filter_congr fun n hn => ?_
        obtain ⟨hn1, hn2⟩ := List.mem_range'_1.mp hn
        have hne : ¬ n = e.seq := by omega
        simp [hne]
      rw [hfirst, hsecond]

/-- C6: a tick that observes no progress, a non-empty reorder buffer and an
idle count reaching nack_timeout sends exactly one nack holding the
ascending list of sequence numbers in `[next_seq, last buffered seq)` that
are absent from the buffer, and resets the idle counter to zero.  The two
buffer hypotheses are the reorder-buffer invariants of every reachable
consumer state. -/
theorem consumer_tick_nack (c : Consumer α)
    (hprog : c.nextSeq ≤ c.lastTickSeq)
    (hne : c.buf ≠ [])
    (hidle : c.nackTimeout ≤ (c.idleTicks + 1) % 256)
    (hsorted : List.Pairwise (fun e f => e.seq < f.seq) c.buf)
    (hgt : ∀ e ∈ c.buf, c.nextSeq < e.seq) :
    ctick c
      = ({ c with lastTickSeq := c.nextSeq,
                  ticks := (c.ticks + 1) % 18446744073709551616,
                  idleTicks := 0 },
         [CMsg.nack ((List.range' c.nextSeq (lastSeq c.buf - c.nextSeq)).filter
            (fun n => n ∉ c.buf.map Event.seq))]) := by
  unfold ctick
  rw [if_neg (by simpa using Nat.not_lt.mpr hprog)]
  rw [if_pos (show (c.buf.isEmpty = false) ∧ c.nackTimeout ≤ (c.idleTicks + 1) % 256
    from ⟨by simpa using hne, hidle⟩)]
  rw [gapGen_eq c.buf c.nextSeq hsorted fun e he => Nat.le_of_lt (hgt e he)]

/-- C6 witness: a consumer at `next_seq = 1` holding events 2 and 5, one
idle tick pending with nack_timeout 1, nacks exactly `[1, 3, 4]`. -/
theorem consumer_tick_nack_witness :
    ctick (⟨1, [⟨2, 20⟩, ⟨5, 50⟩], 0, 1, 0, 1, 1⟩ : Consumer Nat)
      = ((⟨1, [⟨2, 20⟩, ⟨5, 50⟩], 1 % 18446744073709551616, 1, 0, 1, 1⟩ : Consumer Nat),
         [CMsg.nack ((List.range' 1
              (lastSeq ([⟨2, 20⟩, ⟨5, 50⟩] : List (Event Nat)) - 1)).filter
            (fun n => n ∉ ([⟨2, 20⟩, ⟨5, 50⟩] : List (Event Nat)).map Event.seq))]) :=
  consumer_tick_nack _ (by decide) (by decide) (by decide) (by decide) (by decide)

end ClaimC6

section ClaimC2

open Consumer

variable {α : Type}

theorem consumeLoop_spec (buf : List (Event α)) : ∀ next : Nat,
    List.Pairwise (fun e f => e.seq < f.seq) buf →
    (∀ e ∈ buf, next ≤ e.seq) →
    ∃ k, (consumeLoop next buf).1 = next + k ∧
      (consumeLoop next buf).2.1 = buf.drop k ∧
      (consumeLoop next buf).2.2.map Prod.fst = List.range' next k ∧
      (∀ e ∈ buf.drop k, next + k < e.seq) := by
  induction buf with
  | nil => exact fun next _ _ => ⟨0, rfl, rfl, rfl, by simp⟩
  | cons e rest ih =>
    intro next hp hge
    obtain ⟨hrest, hp2⟩ := List.pairwise_cons.mp hp
    by_cases he : e.seq = next
    · obtain ⟨k, h1, h2, h3, h4⟩ := ih (next + 1) hp2 fun x hx => he ▸ hrest x hx
      have hunfold : consumeLoop next (e :: rest)
          = ((consumeLoop (next + 1) rest).1, (consumeLoop (next + 1) rest).2.1,
             (e.seq, e.content) :: (consumeLoop (next + 1) rest).2.2) := by
        simp [consumeLoop, he]
      refine ⟨k + 1, ?_, ?_, ?_, ?_⟩
      · rw [hunfold]
        show (consumeLoop (next + 1) rest).1 = next + (k + 1)
        omega
      · rw [hunfold]
        exact h2
      · rw [hunfold]
        show e.seq :: (consumeLoop (next + 1) rest).2.2.map Prod.fst
            = List.range' next (k + 1)
        rw [h3, he, List.range'_succ]
      · intro x hx
        have := h4 x hx
        omega
    · have hunfold : consumeLoop next (e :: rest) = (next, e :: rest, []) := by
        simp [consumeLoop, he]
      refine ⟨0, by rw [hunfold]; rfl, by rw [hunfold]; rfl, by rw [hunfold]; rfl, ?_⟩
      intro x hx
      rcases List.mem_cons.mp hx with rfl | hx2
      · have := hge x (List.mem_cons_self x rest)
        omega
      · have h5 := hge e (List.mem_cons_self e rest)
        have h6 := hrest x hx2
        omega

theorem try_consume_spec (c : Consumer α)
    (hs : List.Pairwise (fun e f => e.seq < f.seq) c.buf)
    (hge : ∀ e ∈ c.buf, c.nextSeq ≤ e.seq) :
    ∃ k, (try_consume_buffer c).1
        = { c with nextSeq := c.nextSeq + k, buf := c.buf.drop k } ∧
      (try_consume_buffer c).2.map Prod.fst = List.range' c.nextSeq k ∧
      ∀ e ∈ c.buf.drop k, c.nextSeq + k < e.seq := by
  obtain ⟨k, h1, h2, h3, h4⟩ := consumeLoop_spec c.buf c.nextSeq hs hge
  exact ⟨k, by rw [show (try_consume_buffer c).1
      = { c with nextSeq := (consumeLoop c.nextSeq c.buf).1,
                 buf := (consumeLoop c.nextSeq c.buf).2.1 } from rfl, h1, h2],
    h3, h4⟩

theorem insertOrdered_mem (buf : List (Event α)) (s : Nat) (pl : α) :
    ∀ e ∈ insertOrdered buf s pl, e = (⟨s, pl⟩ : Event α) ∨ e ∈ buf := by
  induction buf with
  | nil =>
    intro e he
    rcases List.mem_singleton.mp he with rfl
    exact Or.inl rfl
  | cons f rest ih =>
    intro e he
    by_cases h1 : s ≤ f.seq
    · by_cases h2 : f.seq = s
      · rw [show insertOrdered (f :: rest) s pl = f :: rest by
          simp [insertOrdered, h1, h2]] at he
        exact Or.inr he
      · rw [show insertOrdered (f :: rest) s pl = ⟨s, pl⟩ :: f :: rest by
          simp [insertOrdered, h1, h2]] at he
        rcases List.mem_cons.mp he with rfl | he2
        · exact Or.inl rfl
        · exact Or.inr he2
    · rw [show insertOrdered (f :: rest) s pl = f :: insertOrdered rest s pl by
        simp [insertOrdered, h1]] at he
      rcases List.mem_cons.mp he with rfl | he2
      · exact Or.inr (List.mem_cons_self e rest)
      · rcases ih e he2 with h | h
        · exact Or.inl h
        · exact Or.inr (List.mem_cons_of_mem f h)

theorem insertOrdered_pairwise (buf : List (Event α)) (s : Nat) (pl : α) :
    List.Pairwise (fun e f => e.seq < f.seq) buf →
    List.Pairwise (fun e f => e.seq < f.seq) (insertOrdered buf s pl) := by
  induction buf with
  | nil => exact fun _ => by simp [insertOrdered]
  | cons f rest ih =>
    intro hp
    obtain ⟨hrest, hp2⟩ := List.pairwise_cons.mp hp
    by_cases h1 : s ≤ f.seq
    · by_cases h2 : f.seq = s
      · rw [show insertOrdered (f :: rest) s pl = f :: rest by
          simp [insertOrdered, h1, h2]]
        exact hp
      · rw [show insertOrdered (f :: rest) s pl = ⟨s, pl⟩ :: f :: rest by
          simp [insertOrdered, h1, h2]]
        refine List.pairwise_cons.mpr ⟨?_, hp⟩
        intro x hx
        rcases List.mem_cons.mp hx with rfl | hx2
        · show s < x.seq
          omega
        · have := hrest x hx2
          show s < x.seq
          omega
    · rw [show insertOrdered (f :: rest) s pl = f :: insertOrdered rest s pl by
        simp [insertOrdered, h1]]
      refine List.pairwise_cons.mpr ⟨?_, ih hp2⟩
      intro x hx
      rcases insertOrdered_mem rest s pl x hx with rfl | hx2
      · show f.seq < s
        omega
      · exact hrest x hx2

theorem ctick_preserves (c : Consumer α) :
    (ctick c).1.nextSeq = c.nextSeq ∧ (ctick c).1.buf = c.buf := by
  unfold ctick
  by_cases h1 : c.lastTickSeq < c.nextSeq <;>
    by_cases h2 : (c.ticks + 1) % 18446744073709551616 % c.ackInterval = 0 <;>
    by_cases h3 : 0 < c.idleTicks <;>
    by_cases h4 : c.buf.isEmpty = false <;>
    by_cases h5 : c.nackTimeout ≤ (c.idleTicks + 1) % 256 <;>
    simp [h1, h2, h3, h4, h5]

theorem CInv_cstep (o : Nat) (c : Consumer α) (op : COp α)
    (h : CInv o c) (hop : copOK o op = true) :
    CInv o (cstep c op).1 ∧ c.nextSeq ≤ (cstep c op).1.nextSeq ∧
    (cstep c op).2.map Prod.fst
      = List.range' (max c.nextSeq (o + 1))
          ((cstep c op).1.nextSeq - max c.nextSeq (o + 1)) := by
  obtain ⟨hi1, hi2, hi3, hi4⟩ := h
  match op with
  | COp.tk =>
    obtain ⟨hn, hb⟩ := ctick_preserves c
    show CInv o (Consumer.ctick c).1 ∧ c.nextSeq ≤ (Consumer.ctick c).1.nextSeq ∧
      ([] : List (Nat × α)).map Prod.fst
        = List.range' (max c.nextSeq (o + 1))
            ((Consumer.ctick c).1.nextSeq - max c.nextSeq (o + 1))
    refine ⟨⟨?_, ?_, ?_, ?_⟩, ?_, ?_⟩
    · rw [hb]
      exact hi1
    · intro e he
      rw [hb] at he
      exact hi2 e he
    · intro e he
      rw [hb] at he
      rw [hn]
      exact hi3 e he
    · rw [hn]
      exact hi4
    · rw [hn]
    · rw [hn, Nat.sub_eq_zero_of_le (Nat.le_max_left _ _)]
      rfl
  | COp.hshake off =>
    have hoo : off = o := by simpa [copOK] using hop
    subst hoo
    show CInv off (c.handle_handshake off).1 ∧
      c.nextSeq ≤ (c.handle_handshake off).1.nextSeq ∧
      (c.handle_handshake off).2.map Prod.fst
        = List.range' (max c.nextSeq (off + 1))
            ((c.handle_handshake off).1.nextSeq - max c.nextSeq (off + 1))
    by_cases hproc : c.nextSeq ≤ off
    · have hz : c.nextSeq = 0 := by
        rcases hi4 with h0 | h0
        · exact h0
        · omega
      have hh : c.handle_handshake off
          = Consumer.try_consume_buffer { c with nextSeq := off + 1 } := by
        unfold Consumer.handle_handshake
        rw [if_pos hproc]
      obtain ⟨k, hk1, hk2, hk3⟩ := try_consume_spec { c with nextSeq := off + 1 }
        hi1 fun e he => hi2 e he
      rw [hh, hk1]
      refine ⟨⟨?_, ?_, ?_, ?_⟩, ?_, ?_⟩
      · exact hi1.sublist (List.drop_sublist k c.buf)
      · intro e he
        exact hi2 e (List.mem_of_mem_drop he)
      · intro e he
        exact hk3 e he
      · right
        show off < off + 1 + k
        omega
      · show c.nextSeq ≤ off + 1 + k
        omega
      · rw [hk2]
        have hm : max c.nextSeq (off + 1) = off + 1 := by omega
        rw [hm]
        show List.range' (off + 1) k = List.range' (off + 1) (off + 1 + k - (off + 1))
        congr 1
        omega
    · have hh : c.handle_handshake off = (c, []) := by
        unfold Consumer.handle_handshake
        rw [if_neg hproc]
      rw [hh]
      refine ⟨⟨hi1, hi2, hi3, hi4⟩, Nat.le_refl _, ?_⟩
      show ([] : List (Nat × α)).map Prod.fst
        = List.range' (max c.nextSeq (off + 1)) (c.nextSeq - max c.nextSeq (off + 1))
      rw [Nat.sub_eq_zero_of_le (Nat.le_max_left _ _)]
      rfl
  | COp.ev s pl =>
    have hos : o < s := by simpa [copOK] using hop
    show CInv o (c.handle_event s pl).1 ∧
      c.nextSeq ≤ (c.handle_event s pl).1.nextSeq ∧
      (c.handle_event s pl).2.map Prod.fst
        = List.range' (max c.nextSeq (o + 1))
            ((c.handle_event s pl).1.nextSeq - max c.nextSeq (o + 1))
    by_cases h1 : c.nextSeq = s
    · have hh : c.handle_event s pl
          = ((Consumer.try_consume_buffer { c with nextSeq := c.nextSeq + 1 }).1,
             (s, pl) ::
               (Consumer.try_consume_buffer { c with nextSeq := c.nextSeq + 1 }).2) := by
        unfold Consumer.handle_event
        rw [if_pos h1]
      obtain ⟨k, hk1, hk2, hk3⟩ := try_consume_spec { c with nextSeq := c.nextSeq + 1 }
        hi1 fun e he => hi3 e he
      rw [hh, hk1]
      refine ⟨⟨?_, ?_, ?_, ?_⟩, ?_, ?_⟩
      · exact hi1.sublist (List.drop_sublist k c.buf)
      · intro e he
        exact hi2 e (List.mem_of_mem_drop he)
      · intro e he
        exact hk3 e he
      · right
        show o < c.nextSeq + 1 + k
        omega
      · show c.nextSeq ≤ c.nextSeq + 1 + k
        omega
      · show ((s, pl) ::
            (Consumer.try_consume_buffer { c with nextSeq := c.nextSeq + 1 }).2).map
              Prod.fst
          = List.range' (max c.nextSeq (o + 1))
              (c.nextSeq + 1 + k - max c.nextSeq (o + 1))
        rw [List.map_cons, hk2]
        have hm : max c.nextSeq (o + 1) = c.nextSeq := by omega
        rw [hm, show c.nextSeq + 1 + k - c.nextSeq = k + 1 by omega, List.range'_succ]
        show s :: List.range' (c.nextSeq + 1) k = c.nextSeq :: List.range' (c.nextSeq + 1) k
        rw [h1]
    · by_cases h2 : c.nextSeq < s
      · have hh : c.handle_event s pl
            = ({ c with buf := Consumer.insertOrdered c.buf s pl }, []) := by
          unfold Consumer.handle_event
          rw [if_neg h1, if_pos h2]
        rw [hh]
        refine ⟨⟨insertOrdered_pairwise c.buf s pl hi1, ?_, ?_, hi4⟩, Nat.le_refl _, ?_⟩
        · intro e he
          rcases insertOrdered_mem c.buf s pl e he with rfl | he2
          · exact hos
          · exact hi2 e he2
        · intro e he
          rcases insertOrdered_mem c.buf s pl e he with rfl | he2
          · exact h2
          · exact hi3 e he2
        · rw [Nat.sub_eq_zero_of_le (Nat.le_max_left _ _)]
          rfl
      · have hh : c.handle_event s pl = (c, []) := by
          unfold Consumer.handle_event
          rw [if_neg h1, if_neg h2]
        rw [hh]
        refine ⟨⟨hi1, hi2, hi3, hi4⟩, Nat.le_refl _, ?_⟩
        rw [Nat.sub_eq_zero_of_le (Nat.le_max_left _ _)]
        rfl
theorem range'_glue (M n0 n1 n2 : Nat) (h01 : n0 ≤ n1) (h12 : n1 ≤ n2)
    (hn1 : n1 = 0 ∨ M ≤ n1) :
    List.range' (max n0 M) (n1 - max n0 M) ++ List.range' (max n1 M) (n2 - max n1 M)
      = List.range' (max n0 M) (n2 - max n0 M) := by
  rcases hn1 with h0 | h0
  · have hz : n0 = 0 := by omega
    rw [h0, hz]
    simp
  · have hA : max n0 M ≤ n1 := by omega
    have hm1 : max n1 M = n1 := by omega
    rw [hm1]
    calc List.range' (max n0 M) (n1 - max n0 M) ++ List.range' n1 (n2 - n1)
        = List.range' (max n0 M) (n1 - max n0 M)
          ++ List.range' (max n0 M + 1 * (n1 - max n0 M)) (n2 - n1) := by
          rw [show max n0 M + 1 * (n1 - max n0 M) = n1 by omega]
      _ = List.range' (max n0 M) ((n2 - n1) + (n1 - max n0 M)) :=
          List.range'_append _ _ _ 1
      _ = List.range' (max n0 M) (n2 - max n0 M) := by
          rw [show (n2 - n1) + (n1 - max n0 M) = n2 - max n0 M by omega]

theorem crun_spec (o : Nat) (ops : List (COp α)) : ∀ c : Consumer α, CInv o c →
    (∀ op ∈ ops, copOK o op = true) →
    CInv o (crun c ops).1 ∧ c.nextSeq ≤ (crun c ops).1.nextSeq ∧
    (crun c ops).2.map Prod.fst
      = List.range' (max c.nextSeq (o + 1))
          ((crun c ops).1.nextSeq - max c.nextSeq (o + 1)) := by
  induction ops with
  | nil =>
    intro c h _
    refine ⟨h, Nat.le_refl _, ?_⟩
    rw [show (crun c []).2 = ([] : List (Nat × α)) from rfl,
      show (crun c []).1 = c from rfl,
      Nat.sub_eq_zero_of_le (Nat.le_max_left _ _)]
    rfl
  | cons op ops ih =>
    intro c h hops
    obtain ⟨hi1, hi2, hi3⟩ := CInv_cstep o c op h (hops op (List.mem_cons_self op ops))
    obtain ⟨hj1, hj2, hj3⟩ := ih (cstep c op).1 hi1
      fun x hx => hops x (List.mem_cons_of_mem op hx)
    have hcr : crun c (op :: ops)
        = ((crun (cstep c op).1 ops).1,
           (cstep c op).2 ++ (crun (cstep c op).1 ops).2) := rfl
    rw [hcr]
    refine ⟨hj1, Nat.le_trans hi2 hj2, ?_⟩
    rw [List.map_append, hi3, hj3]
    exact range'_glue (o + 1) c.nextSeq (cstep c op).1.nextSeq
      (crun (cstep c op).1 ops).1.nextSeq hi2 hj2 hi1.2.2.2

/-- C2: as stated the claim is false.  Buffering event 3 and then processing
a handshake with offset 9 leaves entry 3 in the reorder buffer while
`next_seq_` jumps to 10, violating the claimed invariant that every buffered
entry has seq greater than `next_seq_`. -/
theorem consumer_invariant_cex :
    (crun c2Consumer [COp.ev 3 42, COp.hshake 9]).1.buf = [⟨3, 42⟩] ∧
    (crun c2Consumer [COp.ev 3 42, COp.hshake 9]).1.nextSeq = 10 ∧
    ¬ (∀ e ∈ (crun c2Consumer [COp.ev 3 42, COp.hshake 9]).1.buf,
        (crun c2Consumer [COp.ev 3 42, COp.hshake 9]).1.nextSeq < e.seq) := by
  decide

/-- C2 (amended): restricted to traces of a single producer path — all
handshakes carry the path's fixed offset `o` and every event a sequence
number beyond `o` — the claim holds: payloads are delivered in strictly
increasing sequence order starting at `o + 1` and advancing by exactly 1
per delivery, the reorder buffer stays strictly sorted (hence duplicate
free) with every entry beyond `next_seq_`, and an event with
`seq < next_seq_` is discarded with no state change. -/
theorem consumer_trace_spec (o : Nat) (c0 : Consumer α) (ops : List (COp α))
    (h0seq : c0.nextSeq = 0) (h0buf : c0.buf = [])
    (hops : ∀ op ∈ ops, copOK o op = true) :
    ((crun c0 ops).2.map Prod.fst
        = List.range' (o + 1) (crun c0 ops).2.length) ∧
    List.Pairwise (fun e f => e.seq < f.seq) (crun c0 ops).1.buf ∧
    (∀ e ∈ (crun c0 ops).1.buf, (crun c0 ops).1.nextSeq < e.seq) ∧
    ∀ (c : Consumer α) (s : Nat) (pl : α), s < c.nextSeq →
      c.handle_event s pl = (c, []) := by
  have h0 : CInv o c0 := by
    refine ⟨?_, ?_, ?_, Or.inl h0seq⟩ <;> rw [h0buf] <;> simp
  obtain ⟨⟨f1, f2, f3, f4⟩, hmono, hdel⟩ := crun_spec o ops c0 h0 hops
  refine ⟨?_, f1, f3, ?_⟩
  · have hmax : max c0.nextSeq (o + 1) = o + 1 := by
      rw [h0seq]
      omega
    rw [hmax] at hdel
    have hlen : (crun c0 ops).2.length
        = (crun c0 ops).1.nextSeq - (o + 1) := by
      rw [← List.length_map (crun c0 ops).2 Prod.fst, hdel, List.length_range']
    rw [hdel, hlen]
  · intro c s pl hlt
    unfold handle_event
    rw [if_neg (by omega), if_neg (by omega)]

/-- C2 witness: offset 0, trace handshake, event 2 (buffered), event 1
(delivered, then 2 drained from the buffer), one tick. -/
theorem consumer_trace_spec_witness :
    (crun (⟨0, [], 0, 0, 0, 1, 1⟩ : Consumer Nat)
        [COp.hshake 0, COp.ev 2 22, COp.ev 1 11, COp.tk]).2.map Prod.fst
      = List.range' (0 + 1)
          (crun (⟨0, [], 0, 0, 0, 1, 1⟩ : Consumer Nat)
            [COp.hshake 0, COp.ev 2 22, COp.ev 1 11, COp.tk]).2.length :=
  (consumer_trace_spec 0 _ _ (by decide) (by decide) (by decide)).1

end ClaimC2

namespace Master

variable {δ : Type} [DecidableEq δ]

theorem getB_putB (st : List (δ × δ × Option Nat)) (k v : δ) (et : Option Nat) :
    getB (putB st k v et) k = some (v, et) := by
  simp [getB, putB, List.find?_cons]

end Master

section ClaimC10

open Master

variable {δ : Type} [DecidableEq δ]

/-- C10: the clone-only commands expire_command, snapshot_sync_command and
set_command leave a master entirely unchanged — backend store, clone
registry and reminders untouched, no event emitted, nothing broadcast,
nothing sent. -/
theorem master_clone_only_commands_noop (sub : δ → δ → Option δ)
    (addFn : Option δ → δ → Nat → Option δ) (clock : Nat) (ms : Master δ)
    (k : δ) (pub : Nat) (rcl : Option Nat) (snap : List (δ × δ)) :
    masterCmd sub addFn clock ms (Cmd.expire k pub) = (ms, []) ∧
    masterCmd sub addFn clock ms (Cmd.snapshotSync rcl) = (ms, []) ∧
    masterCmd sub addFn clock ms (Cmd.set snap) = (ms, []) :=
  ⟨rfl, rfl, rfl⟩

end ClaimC10

section ClaimC3

open Master

variable {δ : Type} [DecidableEq δ]

/-- C3: put_unique on an existing key replies `(false, req_id)` to the
requester, broadcasts nothing and leaves the backend unchanged; on a fresh
key it stores the value under the clock-relative expiry, replies
`(true, req_id)`, schedules the reminder, emits an insert event and
broadcasts a plain put command. -/
theorem master_put_unique_spec (sub : δ → δ → Option δ)
    (addFn : Option δ → δ → Nat → Option δ) (clock : Nat) (ms : Master δ)
    (k v : δ) (exp : Option Nat) (pub who rid : Nat) :
    (existsB ms.store k = true →
      masterCmd sub addFn clock ms (Cmd.putUnique k v exp pub who rid)
        = (ms, [MOut.reply who false rid])) ∧
    (existsB ms.store k = false →
      masterCmd sub addFn clock ms (Cmd.putUnique k v exp pub who rid)
        = ({ ms with store := putB ms.store k v (exp.map (clock + ·)) },
           [MOut.reply who true rid] ++ remindOf exp k
             ++ [MOut.emit (SEvent.insert k v exp pub),
                 MOut.broadcast (Cmd.put k v exp pub)])) := by
  constructor <;> intro h <;> simp [masterCmd, h]

/-- C3 witness: on a store holding key 1, put_unique for key 1 replies
false and changes nothing, while put_unique for key 2 (with a 10-tick
expiry at clock 100) stores, replies true, reminds, emits insert and
broadcasts a plain put. -/
theorem master_put_unique_spec_witness :
    (masterCmd (fun a b => some (a - b)) (fun _ v _ => some v) 100
        (⟨[(1, 5, Option.none)], []⟩ : Master Nat)
        (Cmd.putUnique 1 7 Option.none 9 3 77)
      = ((⟨[(1, 5, Option.none)], []⟩ : Master Nat), [MOut.reply 3 false 77])) ∧
    (masterCmd (fun a b => some (a - b)) (fun _ v _ => some v) 100
        (⟨[(1, 5, Option.none)], []⟩ : Master Nat)
        (Cmd.putUnique 2 7 (some 10) 9 3 78)
      = ((⟨[(2, 7, some 110), (1, 5, Option.none)], []⟩ : Master Nat),
         [MOut.reply 3 true 78, MOut.remind 10 2,
          MOut.emit (SEvent.insert 2 7 (some 10) 9),
          MOut.broadcast (Cmd.put 2 7 (some 10) 9)])) :=
  ⟨(master_put_unique_spec (fun a b => some (a - b)) (fun _ v _ => some v) 100
      (⟨[(1, 5, Option.none)], []⟩ : Master Nat) 1 7 Option.none 9 3 77).1 (by decide),
   by
    rw [(master_put_unique_spec (fun a b => some (a - b)) (fun _ v _ => some v) 100
      (⟨[(1, 5, Option.none)], []⟩ : Master Nat) 2 7 (some 10) 9 3 78).2 (by decide)]
    decide⟩

end ClaimC3

section ClaimC8

open Master

variable {δ : Type} [DecidableEq δ]

/-- C8: subtract on an absent key is dropped with no backend change, no
event and no broadcast; on a present key whose backend subtract succeeds,
the master stores the new value, emits an update event carrying the old
value, and broadcasts to clones a plain put with the new value and no
expiry. -/
theorem master_subtract_spec (sub : δ → δ → Option δ)
    (addFn : Option δ → δ → Nat → Option δ) (clock : Nat) (ms : Master δ)
    (k v : δ) (exp : Option Nat) (pub : Nat) :
    (getB ms.store k = Option.none →
      masterCmd sub addFn clock ms (Cmd.subtract k v exp pub) = (ms, [])) ∧
    (∀ old et0 nv, getB ms.store k = some (old, et0) → sub old v = some nv →
      masterCmd sub addFn clock ms (Cmd.subtract k v exp pub)
        = ({ ms with store := putB ms.store k nv (exp.map (clock + ·)) },
           remindOf exp k
             ++ [MOut.emit (SEvent.update k old nv Option.none pub),
                 MOut.broadcast (Cmd.put k nv Option.none pub)])) := by
  constructor
  · intro h
    simp [masterCmd, h]
  · intro old et0 nv hget hsub
    simp [masterCmd, hget, subtractB, hsub, getB_putB]

/-- C8 witness: subtracting 3 from key 2 holding 10 yields a store holding
7, an update event from 10 to 7 and a plain put broadcast, while key 5 is
absent and the command is dropped. -/
theorem master_subtract_spec_witness :
    (masterCmd (fun a b => some (a - b)) (fun _ v _ => some v) 100
        (⟨[(2, 10, Option.none)], []⟩ : Master Nat) (Cmd.subtract 5 3 Option.none 9)
      = ((⟨[(2, 10, Option.none)], []⟩ : Master Nat), [])) ∧
    (masterCmd (fun a b => some (a - b)) (fun _ v _ => some v) 100
        (⟨[(2, 10, Option.none)], []⟩ : Master Nat) (Cmd.subtract 2 3 Option.none 9)
      = ((⟨[(2, 7, Option.none)], []⟩ : Master Nat),
         [MOut.emit (SEvent.update 2 10 7 Option.none 9),
          MOut.broadcast (Cmd.put 2 7 Option.none 9)])) :=
  ⟨(master_subtract_spec (fun a b => some (a - b)) (fun _ v _ => some v) 100
      (⟨[(2, 10, Option.none)], []⟩ : Master Nat) 5 3 Option.none 9).1 (by decide),
   by
    rw [(master_subtract_spec (fun a b => some (a - b)) (fun _ v _ => some v) 100
      (⟨[(2, 10, Option.none)], []⟩ : Master Nat) 2 3 Option.none 9).2 10 Option.none 7
      (by decide) (by decide)]
    decide⟩

end ClaimC8

namespace Address

theorem land_land_self (x m : Nat) : Nat.land (Nat.land x m) m = Nat.land x m := by
  refine Nat.eq_of_testBit_eq fun i => ?_
  show ((x &&& m) &&& m).testBit i = (x &&& m).testBit i
  simp [Nat.testBit_land, Bool.and_assoc]

theorem land_ones (w : Nat) : Nat.land w 0xffffffff = w % 2 ^ 32 := by
  refine Nat.eq_of_testBit_eq fun i => ?_
  show (w &&& 0xffffffff).testBit i = (w % 2 ^ 32).testBit i
  rw [Nat.testBit_land, show (0xffffffff : Nat) = 2 ^ 32 - 1 by norm_num,
    Nat.testBit_two_pow_sub_one, Nat.testBit_mod_two_pow, Bool.and_comm]

theorem land_zero (w : Nat) : Nat.land w 0 = 0 :=
  Nat.le_zero.mp Nat.and_le_right

theorem byteswap32_lt (x : Nat) : byteswap32 x < 2 ^ 32 := by
  unfold byteswap32
  have h1 : x % 256 < 256 := Nat.mod_lt _ (by omega)
  have h2 : x / 2 ^ 8 % 256 < 256 := Nat.mod_lt _ (by omega)
  have h3 : x / 2 ^ 16 % 256 < 256 := Nat.mod_lt _ (by omega)
  have h4 : x / 2 ^ 24 % 256 < 256 := Nat.mod_lt _ (by omega)
  omega

theorem maskArray_lt (n : Nat) : ∀ m ∈ maskArray n, m < 2 ^ 32 := by
  intro m hm
  unfold maskArray at hm
  rcases List.mem_map.mp hm with ⟨i, _, rfl⟩
  by_cases h1 : i < n / 32
  · rw [if_pos h1]
    norm_num
  · by_cases h2 : i = n / 32
    · subst h2
      rw [if_neg h1, if_pos rfl]
      exact byteswap32_lt _
    · rw [if_neg h1, if_neg h2]
      norm_num

theorem store_toWords : ∀ (b : List Nat), (∀ x ∈ b, x < 256) → b.length % 4 = 0 →
    ((toWords b).map storeLE).flatten = b
  | [], _, _ => rfl
  | [_], _, hlen => by simp at hlen
  | [_, _], _, hlen => by simp at hlen
  | [_, _, _], _, hlen => by simp at hlen
  | b0 :: b1 :: b2 :: b3 :: rest, hb, hlen => by
    have ih := store_toWords rest (fun x hx => hb x (by simp [hx]))
      (by simp at hlen ⊢; omega)
    show storeLE (b0 + 2 ^ 8 * b1 + 2 ^ 16 * b2 + 2 ^ 24 * b3)
        ++ ((toWords rest).map storeLE).flatten = b0 :: b1 :: b2 :: b3 :: rest
    rw [ih]
    have h0 := hb b0 (by simp)
    have h1 := hb b1 (by simp)
    have h2 := hb b2 (by simp)
    have h3 := hb b3 (by simp)
    simp only [storeLE, List.cons_append, List.nil_append, List.cons.injEq]
    refine ⟨by omega, by omega, by omega, by omega, trivial⟩

theorem toWords_store : ∀ (ws : List Nat),
    toWords ((ws.map storeLE).flatten) = ws.map (· % 2 ^ 32)
  | [] => rfl
  | w :: rest => by
    show toWords (storeLE w ++ ((rest.map storeLE).flatten))
        = w % 2 ^ 32 :: rest.map (· % 2 ^ 32)
    rw [show storeLE w ++ ((rest.map storeLE).flatten)
        = w % 256 :: w / 2 ^ 8 % 256 :: w / 2 ^ 16 % 256 :: w / 2 ^ 24 % 256
          :: ((rest.map storeLE).flatten) from rfl]
    rw [show toWords (w % 256 :: w / 2 ^ 8 % 256 :: w / 2 ^ 16 % 256
        :: w / 2 ^ 24 % 256 :: ((rest.map storeLE).flatten))
        = (w % 256 + 2 ^ 8 * (w / 2 ^ 8 % 256) + 2 ^ 16 * (w / 2 ^ 16 % 256)
            + 2 ^ 24 * (w / 2 ^ 24 % 256)) :: toWords ((rest.map storeLE).flatten)
          from rfl]
    rw [toWords_store rest]
    refine congrArg (· :: rest.map (· % 2 ^ 32)) ?_
    omega

theorem toWords_lt : ∀ (b : List Nat), (∀ x ∈ b, x < 256) →
    ∀ w ∈ toWords b, w < 2 ^ 32
  | [], _, w, hw => by simp [toWords] at hw
  | [_], _, w, hw => by simp [toWords] at hw
  | [_, _], _, w, hw => by simp [toWords] at hw
  | [_, _, _], _, w, hw => by simp [toWords] at hw
  | b0 :: b1 :: b2 :: b3 :: rest, hb, w, hw => by
    rcases List.mem_cons.mp hw with rfl | hw2
    · have h0 := hb b0 (by simp)
      have h1 := hb b1 (by simp)
      have h2 := hb b2 (by simp)
      have h3 := hb b3 (by simp)
      show b0 + 2 ^ 8 * b1 + 2 ^ 16 * b2 + 2 ^ 24 * b3 < 2 ^ 32
      omega
    · exact toWords_lt rest (fun x hx => hb x (by simp [hx])) w hw2

theorem toWords_length : ∀ (b : List Nat), (toWords b).length = b.length / 4
  | [] => rfl
  | [_] => by simp [toWords]
  | [_, _] => by simp [toWords]
  | [_, _, _] => by simp [toWords]
  | _ :: _ :: _ :: _ :: rest => by
    show (toWords rest).length + 1 = (rest.length + 4) / 4
    rw [toWords_length rest]
    omega

theorem zip_mod_zip : ∀ (ws ms : List Nat), (∀ m ∈ ms, m < 2 ^ 32) →
    ((ws.zipWith (fun w m => Nat.land w m) ms).map (· % 2 ^ 32)).zipWith
        (fun w m => Nat.land w m) ms
      = ws.zipWith (fun w m => Nat.land w m) ms
  | [], _, _ => by simp
  | _ :: _, [], _ => by simp
  | w :: ws, m :: ms, hm => by
    rw [List.zipWith_cons_cons, List.map_cons, List.zipWith_cons_cons]
    have hlt : Nat.land w m < 2 ^ 32 :=
      Nat.lt_of_le_of_lt Nat.and_le_right (hm m (by simp))
    rw [Nat.mod_eq_of_lt hlt, land_land_self,
      zip_mod_zip ws ms fun x hx => hm x (by simp [hx])]

theorem zip_ones : ∀ (ws : List Nat) (k : Nat), ws.length ≤ k →
    ws.zipWith (fun w m => Nat.land w m) (List.replicate k 0xffffffff)
      = ws.map (· % 2 ^ 32)
  | [], _, _ => by simp
  | w :: ws, 0, h => by simp at h
  | w :: ws, k + 1, h => by
    rw [List.replicate_succ, List.zipWith_cons_cons, List.map_cons, land_ones,
      zip_ones ws k (by simpa using h)]

theorem zip_zeros : ∀ (ws : List Nat) (k : Nat), ws.length = k →
    ws.zipWith (fun w m => Nat.land w m) (List.replicate k 0)
      = List.replicate k 0
  | [], 0, _ => rfl
  | [], k + 1, h => by simp at h
  | w :: ws, 0, h => by simp at h
  | w :: ws, k + 1, h => by
    rw [List.replicate_succ, List.zipWith_cons_cons, land_zero,
      zip_zeros ws k (by simpa using h)]

theorem maskArray_128 : maskArray 128 = List.replicate 4 0xffffffff := by decide

theorem maskArray_0 : maskArray 0 = List.replicate 4 0 := by decide

end Address

section ClaimC9

open Address

/-- C9: for a well-formed address (16 bytes, each below 256), mask(n)
returns true for every n up to 128; masking twice with the same n yields
the same bytes as masking once (for every n); mask(128) leaves the 16
bytes unchanged; mask(0) zeroes all 16 bytes; and mask(n) for n above 128
returns false and leaves the bytes untouched. -/
theorem address_mask_spec (b : List Nat) (n : Nat)
    (hlen : b.length = 16) (hb : ∀ x ∈ b, x < 256) :
    (n ≤ 128 → (mask b n).1 = true) ∧
    (mask (mask b n).2 n).2 = (mask b n).2 ∧
    (mask b 128).2 = b ∧
    (mask b 0).2 = List.replicate 16 0 ∧
    (128 < n → mask b n = (false, b)) := by
  have hwlen : (toWords b).length = 4 := by
    rw [toWords_length b, hlen]
  refine ⟨?_, ?_, ?_, ?_, ?_⟩
  · intro hn
    unfold mask
    rw [if_neg (by omega)]
  · by_cases hn : 128 < n
    · simp [mask, hn]
    · unfold mask
      rw [if_neg hn, if_neg hn]
      show ((((toWords ((((toWords b).zipWith (fun w m => Nat.land w m)
            (maskArray n)).map storeLE).flatten)).zipWith (fun w m => Nat.land w m)
            (maskArray n)).map storeLE).flatten)
          = ((((toWords b).zipWith (fun w m => Nat.land w m)
              (maskArray n)).map storeLE).flatten)
      rw [toWords_store, zip_mod_zip (toWords b) (maskArray n) (maskArray_lt n)]
  · unfold mask
    rw [if_neg (by omega)]
    show (((toWords b).zipWith (fun w m => Nat.land w m) (maskArray 128)).map
        storeLE).flatten = b
    rw [maskArray_128, zip_ones (toWords b) 4 (by omega)]
    have hid : (toWords b).map (· % 2 ^ 32) = toWords b :=
      (List.map_congr_left fun w hw =>
        Nat.mod_eq_of_lt (toWords_lt b hb w hw)).trans (List.map_id (toWords b))
    rw [hid]
    exact store_toWords b hb (by omega)
  · unfold mask
    rw [if_neg (by omega)]
    show (((toWords b).zipWith (fun w m => Nat.land w m) (maskArray 0)).map
        storeLE).flatten = List.replicate 16 0
    rw [maskArray_0, zip_zeros (toWords b) 4 hwlen, List.map_replicate]
    decide
  · intro hn
    unfold mask
    rw [if_pos hn]

/-- C9 witness: a concrete 16-byte address masked with 20 top bits. -/
theorem address_mask_spec_witness :
    ((20 : Nat) ≤ 128 →
      (mask [10, 20, 30, 40, 50, 60, 70, 80, 90, 100, 110, 120, 130, 140, 150, 160]
        20).1 = true) ∧
    (mask (mask [10, 20, 30, 40, 50, 60, 70, 80, 90, 100, 110, 120, 130, 140, 150, 160]
        20).2 20).2
      = (mask [10, 20, 30, 40, 50, 60, 70, 80, 90, 100, 110, 120, 130, 140, 150, 160]
          20).2 ∧
    (mask [10, 20, 30, 40, 50, 60, 70, 80, 90, 100, 110, 120, 130, 140, 150, 160]
        128).2
      = [10, 20, 30, 40, 50, 60, 70, 80, 90, 100, 110, 120, 130, 140, 150, 160] ∧
    (mask [10, 20, 30, 40, 50, 60, 70, 80, 90, 100, 110, 120, 130, 140, 150, 160]
        0).2 = List.replicate 16 0 ∧
    ((128 : Nat) < 20 →
      mask [10, 20, 30, 40, 50, 60, 70, 80, 90, 100, 110, 120, 130, 140, 150, 160] 20
        = (false,
           [10, 20, 30, 40, 50, 60, 70, 80, 90, 100, 110, 120, 130, 140, 150, 160])) :=
  address_mask_spec _ 20 (by decide) (by decide)

end ClaimC9

end Broker
